import Mathlib

/-!
Verification of the HexDiff delta core: a shallow embedding of the
rolling hash, signature index, delta engine, optimizer, patch container
and applier, with theorems settling the specification claims.

Files embedded: pkg/hash (rolling hash), pkg/diff/types.go, engine.go,
walk.go, the optimizer, pkg/patch/format.go and applier.go.
-/

set_option maxHeartbeats 1000000
set_option maxRecDepth 100000

deriving instance DecidableEq for Except

namespace HexDiff

/-! ### Rolling hash (pkg/hash, part_006) -/

/-- RollingHashBase from the Go source. -/
def rollingHashBase : Nat := 257

/-- RollingHashMod from the Go source. -/
def rollingHashMod : Nat := 1000000007

/-- FastHash: polynomial hash of a byte slice, base 257 mod 1e9+7.
Embeds hash.FastHash; uint64 arithmetic never wraps because the
accumulator stays below the modulus. -/
def fastHash (data : List Nat) : Nat :=
  data.foldl (fun h b => (h * rollingHashBase + b) % rollingHashMod) 0

/-- State of hash.RollingHash: accumulator, window contents, configured
window size and the precomputed base^(windowSize-1) mod m. -/
structure RollingHash where
  hash : Nat
  window : List Nat
  windowSize : Nat
  basePow : Nat
  deriving Repr, DecidableEq

/-- The loop in NewRollingHash computing base^k mod m starting from 1. -/
def basePowLoop : Nat → Nat
  | 0 => 1
  | k + 1 => (basePowLoop k * rollingHashBase) % rollingHashMod

/-- NewRollingHash: empty window, accumulator 0,
basePow = base^(windowSize-1) mod m. -/
def newRollingHash (windowSize : Nat) : RollingHash :=
  { hash := 0
    window := []
    windowSize := windowSize
    basePow := basePowLoop (windowSize - 1) }

/-- RollingHash.Add: append a byte; while the window is filling do
h := (h*base + b) mod m, once full evict the oldest byte first. -/
def RollingHash.Add (rh : RollingHash) (b : Nat) : RollingHash :=
  if rh.window.length < rh.windowSize then
    { rh with
      window := rh.window ++ [b]
      hash := (rh.hash * rollingHashBase + b) % rollingHashMod }
  else
    let oldByte := rh.window.headI
    { rh with
      window := rh.window.tail ++ [b]
      hash :=
        ((rh.hash + rollingHashMod - (oldByte * rh.basePow) % rollingHashMod)
            % rollingHashMod * rollingHashBase + b) % rollingHashMod }

/-- Feed a whole byte sequence through RollingHash.Add, one byte at a time. -/
def rhFeed (rh : RollingHash) (data : List Nat) : RollingHash :=
  data.foldl RollingHash.Add rh

/-! ### CRC32 (hash/crc32 ChecksumIEEE, reflected polynomial 0xEDB88320) -/

/-- One bit step of the reflected CRC32. -/
def crc32Bit (c : Nat) : Nat :=
  if c % 2 = 1 then (c / 2) ^^^ 0xEDB88320 else c / 2

/-- Fold one byte into the CRC32 accumulator (8 bit steps). -/
def crc32Byte (c b : Nat) : Nat :=
  (crc32Bit (crc32Bit (crc32Bit (crc32Bit
    (crc32Bit (crc32Bit (crc32Bit (crc32Bit (c ^^^ b)))))))))

/-- crc32.ChecksumIEEE over a byte list. -/
def crc32 (data : List Nat) : Nat :=
  (data.foldl crc32Byte 0xFFFFFFFF) ^^^ 0xFFFFFFFF

/-! ### Chunking a byte stream into blocks

Both the signature builder and the delta scan read a file in consecutive
buffers of BlockSize bytes; a regular-file read returns full buffers
until the final, possibly shorter, one. -/

/-- Fuel-indexed chunk splitter; the fuel only drives structural
recursion and is always instantiated with the list length. -/
def chunksOfFuel (bs : Nat) : Nat → List Nat → List (List Nat)
  | _, [] => []
  | 0, _ :: _ => []
  | fuel + 1, x :: xs => (x :: xs).take bs :: chunksOfFuel bs fuel (xs.drop (bs - 1))

/-- Split a list into consecutive chunks of size bs (last one shorter).
For bs = 0 this degenerates to singleton chunks; all uses have bs > 0. -/
def chunksOf (bs : Nat) (l : List Nat) : List (List Nat) :=
  chunksOfFuel bs l.length l

theorem chunksOfFuel_congr (bs : Nat) :
    ∀ (f1 f2 : Nat) (l : List Nat), l.length ≤ f1 → l.length ≤ f2 →
      chunksOfFuel bs f1 l = chunksOfFuel bs f2 l := by
  intro f1
  induction f1 with
  | zero =>
      intro f2 l h1 h2
      match l, h1 with
      | [], _ => cases f2 <;> rfl
  | succ n ih =>
      intro f2 l h1 h2
      match l with
      | [] => cases f2 <;> rfl
      | x :: xs =>
          match f2, h2 with
          | m + 1, h2 =>
              rw [chunksOfFuel, chunksOfFuel]
              have hd : (xs.drop (bs - 1)).length ≤ xs.length := by simp
              have h1' : (xs.drop (bs - 1)).length ≤ n := by
                simp at h1 ⊢; omega
              have h2' : (xs.drop (bs - 1)).length ≤ m := by
                simp at h2 ⊢; omega
              rw [ih m _ h1' h2']

theorem chunksOfFuel_fuel_irrel (bs fuel : Nat) (l : List Nat)
    (h : l.length ≤ fuel) : chunksOfFuel bs fuel l = chunksOf bs l :=
  chunksOfFuel_congr bs fuel l.length l h (le_refl _)

theorem chunksOf_cons_eq (bs : Nat) (hbs : 0 < bs) (x : Nat) (xs : List Nat) :
    chunksOf bs (x :: xs) = (x :: xs).take bs :: chunksOf bs ((x :: xs).drop bs) := by
  have h : (x :: xs).drop bs = xs.drop (bs - 1) := by
    cases bs with
    | zero => omega
    | succ n => simp
  rw [chunksOf]
  simp only [List.length_cons]
  rw [chunksOfFuel, h]
  rw [chunksOfFuel_fuel_irrel bs xs.length _ (by simp)]

/-! ### SHA-256 (crypto/sha256), used for whole-file strong digests -/

/-- 32-bit right rotation. -/
def rotr32 (x n : Nat) : Nat := ((x >>> n) ||| (x <<< (32 - n))) % 2 ^ 32

def sha256Ch (x y z : Nat) : Nat := (x &&& y) ^^^ ((x ^^^ 0xFFFFFFFF) &&& z)

def sha256Maj (x y z : Nat) : Nat := (x &&& y) ^^^ (x &&& z) ^^^ (y &&& z)

def sha256BigSig0 (x : Nat) : Nat := rotr32 x 2 ^^^ rotr32 x 13 ^^^ rotr32 x 22

def sha256BigSig1 (x : Nat) : Nat := rotr32 x 6 ^^^ rotr32 x 11 ^^^ rotr32 x 25

def sha256SmallSig0 (x : Nat) : Nat := rotr32 x 7 ^^^ rotr32 x 18 ^^^ (x >>> 3)

def sha256SmallSig1 (x : Nat) : Nat := rotr32 x 17 ^^^ rotr32 x 19 ^^^ (x >>> 10)

/-- The 64 SHA-256 round constants, in decimal. -/
def sha256K : List Nat :=
  [1116352408, 1899447441, 3049323471, 3921009573, 961987163,
   1508970993, 2453635748, 2870763221, 3624381080, 310598401,
   607225278, 1426881987, 1925078388, 2162078206, 2614888103,
   3248222580, 3835390401, 4022224774, 264347078, 604807628,
   770255983, 1249150122, 1555081692, 1996064986, 2554220882,
   2821834349, 2952996808, 3210313671, 3336571891, 3584528711,
   113926993, 338241895, 666307205, 773529912, 1294757372,
   1396182291, 1695183700, 1986661051, 2177026350, 2456956037,
   2730485921, 2820302411, 3259730800, 3345764771, 3516065817,
   3600352804, 4094571909, 275423344, 430227734, 506948616,
   659060556, 883997877, 958139571, 1322822218, 1537002063,
   1747873779, 1955562222, 2024104815, 2227730452, 2361852424,
   2428436474, 2756734187, 3204031479, 3329325298]

/-- Initial SHA-256 state words, in decimal. -/
def sha256InitH : List Nat :=
  [1779033703, 3144134277, 1013904242, 2773480762,
   1359893119, 2600822924, 528734635, 1541459225]

/-- Big-endian bytes of a number, fixed width. -/
def toBytesBE (count n : Nat) : List Nat :=
  (List.range count).map (fun i => (n >>> (8 * (count - 1 - i))) % 256)

/-- Group bytes into big-endian 32-bit words. -/
def toWordsBE : List Nat → List Nat
  | b0 :: b1 :: b2 :: b3 :: rest =>
      (((b0 * 256 + b1) * 256 + b2) * 256 + b3) :: toWordsBE rest
  | _ => []

/-- One step of the message-schedule extension. -/
def sha256ScheduleStep (w : List Nat) : List Nat :=
  let n := w.length
  w ++ [(sha256SmallSig1 (w.getD (n - 2) 0) + w.getD (n - 7) 0 +
         sha256SmallSig0 (w.getD (n - 15) 0) + w.getD (n - 16) 0) % 2 ^ 32]

/-- Iterate the schedule extension k times. -/
def sha256ScheduleN : Nat → List Nat → List Nat
  | 0, w => w
  | k + 1, w => sha256ScheduleN k (sha256ScheduleStep w)

/-- One SHA-256 round on the eight working variables. -/
def sha256Round (st : List Nat) (kw : Nat × Nat) : List Nat :=
  match st with
  | [a, b, c, d, e, f, g, h] =>
    let t1 := (h + sha256BigSig1 e + sha256Ch e f g + kw.1 + kw.2) % 2 ^ 32
    let t2 := (sha256BigSig0 a + sha256Maj a b c) % 2 ^ 32
    [(t1 + t2) % 2 ^ 32, a, b, c, (d + t1) % 2 ^ 32, e, f, g]
  | _ => st

/-- Process one 64-byte block into the hash state. -/
def sha256Block (hs : List Nat) (block : List Nat) : List Nat :=
  let w := sha256ScheduleN 48 (toWordsBE block)
  let st := (sha256K.zip w).foldl sha256Round hs
  (hs.zip st).map (fun p => (p.1 + p.2) % 2 ^ 32)

/-- SHA-256 padding: 0x80, zeros to 56 mod 64, 8-byte big-endian bit length. -/
def sha256Pad (msg : List Nat) : List Nat :=
  msg ++ 0x80 :: List.replicate ((119 - msg.length % 64) % 64) 0 ++
    toBytesBE 8 (8 * msg.length)

/-- SHA-256 digest of a byte list, as a list of 32 bytes. -/
def sha256 (msg : List Nat) : List Nat :=
  ((chunksOf 64 (sha256Pad msg)).foldl sha256Block sha256InitH).foldr
    (fun w acc => toBytesBE 4 w ++ acc) []

/-! ### Data model (pkg/diff/types.go) -/

/-- diff.OperationType. -/
inductive OperationType where
  | opCopy
  | opInsert
  | opDelete
  deriving Repr, DecidableEq

/-- diff.Block: a source-side record in the signature. -/
structure Block where
  offset : Nat
  size : Nat
  hash : Nat
  checksum : Nat
  deriving Repr, DecidableEq

/-- diff.Operation. Offsets and sizes are the non-negative values the
engine produces (Go uses int64/int). -/
structure Operation where
  type : OperationType
  offset : Nat
  size : Nat
  data : List Nat
  srcOffset : Nat
  deriving Repr, DecidableEq

/-- diff.Signature: block-size, buckets from fast hash to blocks in
first-insertion order, file size, whole-file digest. The Go map is
modelled as an association list; FindBlock touches a single key. -/
structure Signature where
  blockSize : Nat
  blocks : List (Nat × List Block)
  fileSize : Nat
  checksum : List Nat
  deriving Repr, DecidableEq

/-- Look up the bucket for a hash key (Go map indexing). -/
def lookupBucket (buckets : List (Nat × List Block)) (h : Nat) : Option (List Block) :=
  match buckets with
  | [] => none
  | (k, v) :: rest => if k = h then some v else lookupBucket rest h

/-- Insert a block at the back of its hash bucket (Signature.AddBlock). -/
def addBucket (buckets : List (Nat × List Block)) (b : Block) : List (Nat × List Block) :=
  match buckets with
  | [] => [(b.hash, [b])]
  | (k, v) :: rest =>
      if k = b.hash then (k, v ++ [b]) :: rest else (k, v) :: addBucket rest b

/-- Signature.FindBlock: miss when no bucket exists for the hash,
otherwise the first block in the bucket whose CRC32 equals the
candidate's CRC32. The Go code compares only the checksum. -/
def findBlock (s : Signature) (h : Nat) (data : List Nat) : Option Block :=
  match lookupBucket s.blocks h with
  | none => none
  | some bucket => bucket.find? (fun b => b.checksum = crc32 data)

/-- diff.Delta. -/
structure Delta where
  operations : List Operation
  sourceSize : Nat
  targetSize : Nat
  checksum : List Nat
  deriving Repr, DecidableEq

/-! ### Signature generation (Engine.GenerateSignature, engine.go) -/

/-- The blocks created for a source, one per BlockSize chunk, paired
with their absolute offsets. -/
def signatureBlocks (bs : Nat) (src : List Nat) : List Block :=
  ((chunksOf bs src).foldl
    (fun (acc : List Block × Nat) c =>
      (acc.1 ++ [{ offset := acc.2, size := c.length,
                   hash := fastHash c, checksum := crc32 c }],
       acc.2 + c.length))
    ([], 0)).1

/-- Engine.GenerateSignature on the in-memory source bytes. -/
def generateSignature (bs : Nat) (src : List Nat) : Signature :=
  { blockSize := bs
    blocks := (signatureBlocks bs src).foldl addBucket []
    fileSize := src.length
    checksum := sha256 src }

/-! ### Delta generation (generateDeltaWithRollingHash + processBlock) -/

/-- The Go slice `unmatchedData`, modelled with its backing arrays made
explicit, because the code stores the LIVE slice in each flushed
INSERT's Data and then truncates it with `(*unmatchedData)[:0]` and
keeps appending into the same backing array. `arena` lists the backing
arrays allocated so far, `cur` indexes the one the slice currently
points to, `len` is the slice length. The slice always starts at
index 0 of its array: `[:0]` and an in-place `append` keep the
pointer, and a reallocating `append` of the length-0 or length-`len`
prefix starts a fresh array. Capacity is modelled as the array's
allocated length: Go guarantees in-place reuse exactly when the new
length fits the capacity, and the capacity is at least the allocated
length, so every reuse the model performs is one the code performs. -/
structure SliceState where
  arena : List (List Nat)
  cur : Nat
  len : Nat
  deriving Repr, DecidableEq

/-- Go `append(s, bytes...)` for a slice at index 0 of its array:
writes in place (mutating the backing array, visible through every
slice that shares it) when the new length fits the array, otherwise
allocates a new array holding the retained prefix followed by the new
bytes. -/
def sliceAppend (s : SliceState) (bytes : List Nat) : SliceState :=
  let arr := s.arena.getD s.cur []
  if s.len + bytes.length ≤ arr.length then
    { arena := s.arena.set s.cur
        (arr.take s.len ++ bytes ++ arr.drop (s.len + bytes.length))
      cur := s.cur
      len := s.len + bytes.length }
  else
    { arena := s.arena ++ [arr.take s.len ++ bytes]
      cur := s.arena.length
      len := s.len + bytes.length }

/-- An operation as recorded during the scan. A COPY carries its final
fields. A flushed INSERT's Data holds the live `unmatchedData` slice —
array identity and length at flush time — whose bytes are read out
only after the scan has finished mutating the arrays. -/
inductive ScanOp where
  | copy (offset size srcOffset : Nat)
  | insertRef (offset size bufId : Nat)
  deriving Repr, DecidableEq

/-- Mutable locals of the scan loop: recorded operations, start of the
pending unmatched region, the `unmatchedData` slice. -/
structure GenState where
  ops : List ScanOp
  unmatchedStart : Nat
  buf : SliceState
  deriving Repr, DecidableEq

/-- processBlock followed by the caller's buffer append: on a match
flush the pending INSERT (storing the live slice) and emit a COPY,
truncating the slice to length 0 over the SAME backing array;
otherwise append the chunk to the slice (recording the region's start
when the slice was empty). -/
def processChunk (sig : Signature) (c : List Nat) (off : Nat) (st : GenState) : GenState :=
  match findBlock sig (fastHash c) c with
  | some mb =>
      let ops1 :=
        if st.buf.len > 0 then
          st.ops ++ [ScanOp.insertRef st.unmatchedStart st.buf.len st.buf.cur]
        else st.ops
      { ops := ops1 ++ [ScanOp.copy off mb.size mb.offset]
        unmatchedStart := off + mb.size
        buf := { st.buf with len := 0 } }
  | none =>
      { ops := st.ops
        unmatchedStart := if st.buf.len = 0 then off else st.unmatchedStart
        buf := sliceAppend st.buf c }

/-- Fuel-indexed scan loop; fuel is always the remaining list length. -/
def genLoopFuel (sig : Signature) (bs : Nat) : Nat → List Nat → Nat → GenState → GenState
  | _, [], _, st => st
  | 0, _ :: _, _, st => st
  | fuel + 1, x :: xs, off, st =>
      let c := (x :: xs).take bs
      genLoopFuel sig bs fuel (xs.drop (bs - 1)) (off + c.length) (processChunk sig c off st)

/-- The scan loop over the target, reading BlockSize chunks. -/
def genLoop (sig : Signature) (bs : Nat) (l : List Nat) (off : Nat) (st : GenState) : GenState :=
  genLoopFuel sig bs l.length l off st

theorem genLoopFuel_congr (sig : Signature) (bs : Nat) :
    ∀ (f1 f2 : Nat) (l : List Nat) (off : Nat) (st : GenState),
      l.length ≤ f1 → l.length ≤ f2 →
      genLoopFuel sig bs f1 l off st = genLoopFuel sig bs f2 l off st := by
  intro f1
  induction f1 with
  | zero =>
      intro f2 l off st h1 h2
      match l, h1 with
      | [], _ => cases f2 <;> rfl
  | succ n ih =>
      intro f2 l off st h1 h2
      match l with
      | [] => cases f2 <;> rfl
      | x :: xs =>
          match f2, h2 with
          | m + 1, h2 =>
              rw [genLoopFuel, genLoopFuel]
              have h1' : (xs.drop (bs - 1)).length ≤ n := by
                simp at h1 ⊢; omega
              have h2' : (xs.drop (bs - 1)).length ≤ m := by
                simp at h2 ⊢; omega
              exact ih m _ _ _ h1' h2'

theorem genLoop_cons_eq (sig : Signature) (bs : Nat) (hbs : 0 < bs)
    (x : Nat) (xs : List Nat) (off : Nat) (st : GenState) :
    genLoop sig bs (x :: xs) off st =
      genLoop sig bs ((x :: xs).drop bs) (off + ((x :: xs).take bs).length)
        (processChunk sig ((x :: xs).take bs) off st) := by
  have h : (x :: xs).drop bs = xs.drop (bs - 1) := by
    cases bs with
    | zero => omega
    | succ n => simp
  rw [genLoop]
  simp only [List.length_cons]
  rw [genLoopFuel, h, genLoop]
  exact genLoopFuel_congr sig bs xs.length (xs.drop (bs - 1)).length _ _ _ (by simp) (le_refl _)

/-- Read a recorded operation's bytes out of the arena as it stands
when the delta is consumed, after the scan: an INSERT's Data is the
first `size` bytes of the array its slice points to, whatever in-place
appends have since written there. -/
def resolveScanOp (arena : List (List Nat)) : ScanOp → Operation
  | .copy off size srcOff =>
      { type := .opCopy, offset := off, size := size, data := [], srcOffset := srcOff }
  | .insertRef off size bufId =>
      { type := .opInsert, offset := off, size := size,
        data := (arena.getD bufId []).take size, srcOffset := 0 }

/-- Engine.GenerateDelta on in-memory bytes: build the signature, scan
the target (the initial nil slice is a length-0 view of the empty
array 0), flush the residual unmatched buffer, resolve every
operation's Data against the final state of the backing arrays, record
sizes and the target's SHA-256. The RollingHash created by the Go loop
is never used. -/
def generateDelta (bs : Nat) (src tgt : List Nat) : Delta :=
  let sig := generateSignature bs src
  let st := genLoop sig bs tgt 0
    { ops := [], unmatchedStart := 0, buf := { arena := [[]], cur := 0, len := 0 } }
  let scanOps :=
    if st.buf.len > 0 then
      st.ops ++ [ScanOp.insertRef st.unmatchedStart st.buf.len st.buf.cur]
    else st.ops
  { operations := scanOps.map (resolveScanOp st.buf.arena)
    sourceSize := src.length
    targetSize := tgt.length
    checksum := sha256 tgt }

/-! ### Applier operation loop (pkg/patch/applier.go, applyOperations)

The temp target file is a byte list; a seek past the end followed by a
write fills the gap with zero bytes, as the OS does. Each operation
first seeks to its target offset, then COPY streams bytes read from the
source (a read at EOF returns fewer bytes), INSERT writes its literal
bytes, DELETE writes nothing. -/

/-- Write data into file at position pos, zero-filling any gap; an
empty write leaves the file unchanged (a bare seek does not extend). -/
def writeAt (f : List Nat) (pos : Nat) (d : List Nat) : List Nat :=
  if d = [] then f
  else
    let padded := f ++ List.replicate (pos - f.length) 0
    padded.take pos ++ d ++ padded.drop (pos + d.length)

/-- Bytes a COPY reads from the source: length-bounded by EOF. -/
def copyRead (src : List Nat) (srcOffset size : Nat) : List Nat :=
  (src.drop srcOffset).take size

/-- applyOperation: seek to op.Offset, then dispatch on the type. -/
def applyOperation (src : List Nat) (f : List Nat) (op : Operation) : List Nat :=
  match op.type with
  | .opCopy => writeAt f op.offset (copyRead src op.srcOffset op.size)
  | .opInsert => writeAt f op.offset op.data
  | .opDelete => f

/-- The applier's loop over the operation table. -/
def applyOperationList (src : List Nat) (ops : List Operation) (f : List Nat) : List Nat :=
  ops.foldl (applyOperation src) f

/-! ### Optimizer (OptimizeDelta, src/unnamed/part_004) -/

/-- diff.OptimizerConfig. -/
structure OptimizerConfig where
  enableMergeCopy : Bool
  enableMergeInsert : Bool
  enableMergeDelete : Bool
  minMergedSize : Nat
  deriving Repr, DecidableEq

/-- RemoveEmptyOperations keeps the operations with Size > 0. -/
def removeEmptyOperations (ops : List Operation) : List Operation :=
  ops.filter (fun op => op.size > 0)

/-- mergeCopyOperations: starting from the accumulated op and the
previous original op, absorb following COPYs while both the target and
the source ranges stay contiguous with the previous original. Returns
the merged op and the unconsumed remainder. -/
def mergeCopyOperations (merged prev : Operation) (ops : List Operation) :
    Operation × List Operation :=
  match ops with
  | [] => (merged, [])
  | curr :: rest =>
      if curr.type = .opCopy ∧ prev.offset + prev.size = curr.offset ∧
          prev.srcOffset + prev.size = curr.srcOffset then
        mergeCopyOperations { merged with size := merged.size + curr.size } curr rest
      else
        (merged, curr :: rest)

/-- mergeInsertOperations: absorb following INSERTs with contiguous
target ranges, concatenating their data. -/
def mergeInsertOperations (merged prev : Operation) (ops : List Operation) :
    Operation × List Operation :=
  match ops with
  | [] => (merged, [])
  | curr :: rest =>
      if curr.type = .opInsert ∧ prev.offset + prev.size = curr.offset then
        mergeInsertOperations
          { merged with size := merged.size + curr.size, data := merged.data ++ curr.data }
          curr rest
      else
        (merged, curr :: rest)

/-- mergeDeleteOperations: absorb following DELETEs with contiguous
target ranges. -/
def mergeDeleteOperations (merged prev : Operation) (ops : List Operation) :
    Operation × List Operation :=
  match ops with
  | [] => (merged, [])
  | curr :: rest =>
      if curr.type = .opDelete ∧ prev.offset + prev.size = curr.offset then
        mergeDeleteOperations { merged with size := merged.size + curr.size } curr rest
      else
        (merged, curr :: rest)

theorem mergeCopyOperations_rest_length (m p : Operation) (ops : List Operation) :
    (mergeCopyOperations m p ops).2.length ≤ ops.length := by
  induction ops generalizing m p with
  | nil => simp [mergeCopyOperations]
  | cons curr rest ih =>
      rw [mergeCopyOperations]
      split
      · exact Nat.le_trans (ih _ _) (by simp)
      · simp

theorem mergeInsertOperations_rest_length (m p : Operation) (ops : List Operation) :
    (mergeInsertOperations m p ops).2.length ≤ ops.length := by
  induction ops generalizing m p with
  | nil => simp [mergeInsertOperations]
  | cons curr rest ih =>
      rw [mergeInsertOperations]
      split
      · exact Nat.le_trans (ih _ _) (by simp)
      · simp

theorem mergeDeleteOperations_rest_length (m p : Operation) (ops : List Operation) :
    (mergeDeleteOperations m p ops).2.length ≤ ops.length := by
  induction ops generalizing m p with
  | nil => simp [mergeDeleteOperations]
  | cons curr rest ih =>
      rw [mergeDeleteOperations]
      split
      · exact Nat.le_trans (ih _ _) (by simp)
      · simp

/-- The main merge loop of OptimizeDelta over the operation list. -/
def optimizeOps (cfg : OptimizerConfig) : List Operation → List Operation
  | [] => []
  | op :: rest =>
      match op.type with
      | .opCopy =>
          if cfg.enableMergeCopy then
            let mr := mergeCopyOperations op op rest
            mr.1 :: optimizeOps cfg mr.2
          else op :: optimizeOps cfg rest
      | .opInsert =>
          if cfg.enableMergeInsert then
            let mr := mergeInsertOperations op op rest
            mr.1 :: optimizeOps cfg mr.2
          else op :: optimizeOps cfg rest
      | .opDelete =>
          if cfg.enableMergeDelete then
            let mr := mergeDeleteOperations op op rest
            mr.1 :: optimizeOps cfg mr.2
          else op :: optimizeOps cfg rest
  termination_by l => l.length
  decreasing_by
    all_goals simp
    all_goals first
      | exact Nat.lt_succ_of_le (mergeCopyOperations_rest_length _ _ _)
      | exact Nat.lt_succ_of_le (mergeInsertOperations_rest_length _ _ _)
      | exact Nat.lt_succ_of_le (mergeDeleteOperations_rest_length _ _ _)

/-- The lookahead of optimizeRedundantDeletes: is the next operation a
COPY at the same target offset with at least the delete's length? -/
def deleteCoveredByNext (op : Operation) (rest : List Operation) : Bool :=
  match rest with
  | next :: _ =>
      next.type == .opCopy && op.offset == next.offset && decide (op.size ≤ next.size)
  | [] => false

/-- optimizeRedundantDeletes: drop a DELETE immediately followed by a
COPY at the same target offset with at least its length. -/
def optimizeRedundantDeletes : List Operation → List Operation
  | [] => []
  | op :: rest =>
      if op.type = .opDelete ∧ deleteCoveredByNext op rest then
        optimizeRedundantDeletes rest
      else
        op :: optimizeRedundantDeletes rest

/-- Optimizer.OptimizeDelta: return the input unchanged when it has no
operations; otherwise remove empties, run the merge loop, drop redundant
deletes, and copy the size and checksum fields over. -/
def OptimizeDelta (cfg : OptimizerConfig) (delta : Delta) : Delta :=
  if delta.operations = [] then delta
  else
    { operations :=
        optimizeRedundantDeletes (optimizeOps cfg (removeEmptyOperations delta.operations))
      sourceSize := delta.sourceSize
      targetSize := delta.targetSize
      checksum := delta.checksum }

/-! ### Patch header (pkg/patch/format.go) -/

/-- patch.PatchHeader; sizes are int64 (may be negative after decoding). -/
structure PatchHeader where
  magic : Nat
  version : Nat
  compression : Nat
  reserved : Nat
  timestamp : Int
  sourceSize : Int
  targetSize : Int
  sourceChecksum : List Nat
  targetChecksum : List Nat
  operationCount : Nat
  dataOffset : Nat
  deriving Repr, DecidableEq

/-- Little-endian read of count bytes starting at off. -/
def readLE (data : List Nat) (off count : Nat) : Nat :=
  ((data.drop off).take count).foldr (fun b acc => acc * 256 + b) 0

/-- Reinterpret a uint64 as int64 (two's complement). -/
def toInt64 (n : Nat) : Int :=
  if n < 2 ^ 63 then (n : Int) else (n : Int) - 2 ^ 64

/-- PatchHeader.Validate: magic, version, non-negative sizes. The Go
code checks nothing else; in particular DataOffset is not validated. -/
def validateHeader (h : PatchHeader) : Except String PatchHeader :=
  if h.magic ≠ 0x48455844 then .error "invalid magic number"
  else if h.version ≠ 1 then .error "unsupported version"
  else if h.sourceSize < 0 ∨ h.targetSize < 0 then .error "invalid file size"
  else .ok h

/-- Field extraction of PatchHeader.Unmarshal on a 104-byte prefix. -/
def parseHeaderFields (data : List Nat) : PatchHeader :=
  { magic := readLE data 0 4
    version := readLE data 4 2
    compression := readLE data 6 1
    reserved := readLE data 7 1
    timestamp := toInt64 (readLE data 8 8)
    sourceSize := toInt64 (readLE data 16 8)
    targetSize := toInt64 (readLE data 24 8)
    sourceChecksum := (data.drop 32).take 32
    targetChecksum := (data.drop 64).take 32
    operationCount := readLE data 96 4
    dataOffset := readLE data 100 4 }

/-- PatchHeader.Unmarshal: length check, field extraction, Validate. -/
def unmarshalHeader (data : List Nat) : Except String PatchHeader :=
  if data.length < 104 then .error "insufficient data for header"
  else validateHeader (parseHeaderFields data)

/-! ### Source pre-verification (ApplyPatch and ApplyDelta, applier.go) -/

/-- verifySourceFile: error exactly when the source's SHA-256 differs
from the expected digest. -/
def verifySourceFile (src : List Nat) (expected : List Nat) : Except String Unit :=
  if sha256 src ≠ expected then .error "source file checksum mismatch" else .ok ()

/-- The source pre-verification step of ApplyPatch: it always calls
verifySourceFile with the header's source digest. -/
def applyPatchSourceCheck (headerSourceChecksum : List Nat) (src : List Nat) :
    Except String Unit :=
  verifySourceFile src headerSourceChecksum

/-- The all-zero test ApplyDelta performs on a digest. -/
def isZeroChecksum (digest : List Nat) : Bool :=
  digest.all (fun b => b = 0)

/-- The source pre-verification step of ApplyDelta: skip entirely when
the header's source digest is all-zero, otherwise verify. -/
def applyDeltaSourceCheck (headerSourceChecksum : List Nat) (src : List Nat) :
    Except String Unit :=
  if isZeroChecksum headerSourceChecksum then .ok ()
  else verifySourceFile src headerSourceChecksum

/-! ### Directory comparison (CompareDirectories, pkg/diff/walk.go) -/

/-- diff.FileStatus. -/
inductive FileStatus where
  | unchanged
  | added
  | deleted
  | modified
  deriving Repr, DecidableEq

/-- The classification CompareDirectories performs for a path present
in both trees: sizes equal and mtimes equal skips the pair; otherwise,
when the sizes DIFFER the code reads both files and skips the pair if
the SHA-256 digests coincide; every remaining pair is Modified. The
digest comparison is on the different-size branch in the source. -/
def classifyPair (oldSize newSize : Nat) (mtimeEqual : Bool)
    (oldData newData : List Nat) : Option FileStatus :=
  if oldSize = newSize ∧ mtimeEqual then none
  else if oldSize ≠ newSize then
    if sha256 oldData = sha256 newData then none else some .modified
  else some .modified

/-! ### Ignore patterns (shouldIgnore, pkg/diff/walk.go) -/

/-- Does the character list start with the given pattern (strings.HasPrefix)? -/
def startsWith : List Char → List Char → Bool
  | _, [] => true
  | [], _ :: _ => false
  | x :: xs, y :: ys => x = y && startsWith xs ys

/-- Does the character list end with the given pattern (strings.HasSuffix)? -/
def endsWith (s pat : List Char) : Bool :=
  startsWith s.reverse pat.reverse

/-- strings.TrimPrefix for a single leading star. -/
def trimStar : List Char → List Char
  | '*' :: rest => rest
  | s => s

/-- strings.CutPrefix with the two-character pattern star-dot. -/
def cutStarDot : List Char → Option (List Char)
  | '*' :: '.' :: rest => some rest
  | _ => none

/-- filepath.Base for a forward-slash relative path: the portion after
the last slash (inputs here are clean relative paths, never empty and
without trailing slashes). -/
def baseName (path : List Char) : List Char :=
  ((path.splitOn '/').getLastD path)

/-- One pattern test inside the shouldIgnore loop. The pattern is first
stripped of a single leading star, so the star-dot branch only fires
for patterns that began with two stars. -/
def ignoreMatch (path : List Char) (pattern : List Char) : Bool :=
  let base := baseName path
  let p := trimStar pattern
  (match cutStarDot p with
   | some ext => endsWith base ('.' :: ext) || base = '.' :: ext
   | none => false) ||
  startsWith base p ||
  base = p || startsWith path (p ++ ['/']) || path = p

/-- shouldIgnore: true when any configured pattern matches. -/
def shouldIgnore (path : List Char) (patterns : List (List Char)) : Bool :=
  patterns.any (ignoreMatch path)

/-! ### INSERT bounds check (applyInsertOperation, applier.go) -/

/-- Outcome of executing a deserialized INSERT against the literal
blob: the bytes written, the out-of-bounds error, or a Go slice-bounds
run-time fault. -/
inductive InsertResult where
  | ok (bytes : List Nat)
  | oobError
  | sliceFault
  deriving Repr, DecidableEq

/-- applyInsertOperation: the guard compares DataOffset+Size computed
in uint32 (wrapping) arithmetic against the blob length, then Go
evaluates blob[DataOffset : DataOffset+Size] with the same wrapped
upper index; a slice with low > high or high > len faults at run time.
DataOffset and Size are the uint32 values read from the wire. -/
def applyInsertOperation (dataOffset size : Nat) (blob : List Nat) : InsertResult :=
  let high := (dataOffset + size) % 2 ^ 32
  if high > blob.length then .oobError
  else if dataOffset ≤ high then .ok ((blob.drop dataOffset).take (high - dataOffset))
  else .sliceFault

/-! ### Supporting lemmas -/

/-- Splitting List.find? at its first hit. -/
theorem find?_eq_some_split {α : Type} {p : α → Bool} {l : List α} {b : α} :
    l.find? p = some b ↔
      p b = true ∧ ∃ l1 l2, l = l1 ++ b :: l2 ∧ ∀ x ∈ l1, p x = false := by
  induction l with
  | nil => simp
  | cons a rest ih =>
      rw [List.find?_cons]
      cases hpa : p a with
      | true =>
          simp only [cond_true]
          constructor
          · rintro h
            injection h with h
            subst h
            exact ⟨hpa, [], rest, rfl, by simp⟩
          · rintro ⟨hb, l1, l2, heq, hl1⟩
            match l1, heq with
            | [], heq => injection heq with h1 _; subst h1; rfl
            | x :: l1', heq =>
                injection heq with h1 h2
                subst h1
                have hfalse := hl1 a (by simp)
                rw [hfalse] at hpa
                cases hpa
      | false =>
          simp only [cond_false]
          rw [ih]
          constructor
          · rintro ⟨hb, l1, l2, heq, hl1⟩
            refine ⟨hb, a :: l1, l2, by simp [heq], ?_⟩
            intro x hx
            rcases List.mem_cons.mp hx with h | h
            · subst h; exact hpa
            · exact hl1 x h
          · rintro ⟨hb, l1, l2, heq, hl1⟩
            match l1, heq with
            | [], heq =>
                injection heq with h1 _
                subst h1
                rw [hb] at hpa
                cases hpa
            | x :: l1', heq =>
                injection heq with h1 h2
                subst h1
                exact ⟨hb, l1', l2, h2, fun y hy => hl1 y (by simp [hy])⟩

/-- Unfolding findBlock when the bucket exists. -/
theorem findBlock_bucket {s : Signature} {h : Nat} {bucket : List Block}
    (data : List Nat) (hb : lookupBucket s.blocks h = some bucket) :
    findBlock s h data = bucket.find? (fun b => decide (b.checksum = crc32 data)) := by
  rw [findBlock, hb]

/-! ### Claim C3: FindBlock lookup contract -/

/-- A bucket whose single block has the CRC32 of the empty slice (zero)
but a non-zero length. -/
def c3Block : Block := { offset := 0, size := 5, hash := 0, checksum := 0 }

/-- A signature holding only c3Block, bucketed under hash 0. -/
def c3Sig : Signature :=
  { blockSize := 4, blocks := [(0, [c3Block])], fileSize := 9, checksum := [] }

/-- Claim C3, counterexample: FindBlock returns a block whose length
does not match the candidate: the Go code compares only the CRC32,
never the length. Candidate is the empty slice (CRC32 zero); the
returned block has size 5. -/
theorem C3_counterexample :
    findBlock c3Sig 0 [] = some c3Block ∧ c3Block.size ≠ ([] : List Nat).length := by
  constructor
  · decide
  · decide

/-- Claim C3 (amended): FindBlock returns a miss when no bucket exists
for the hash; otherwise it returns the first block in the bucket whose
CRC32 matches the candidate's CRC32 (first-insertion order; the block
length is not compared), and a miss when no block in the bucket has a
matching CRC32. -/
theorem C3_findBlock_amended (s : Signature) (h : Nat) (data : List Nat) :
    (lookupBucket s.blocks h = none → findBlock s h data = none) ∧
    (∀ bucket, lookupBucket s.blocks h = some bucket →
      ((findBlock s h data = none ↔ ∀ b ∈ bucket, ¬ b.checksum = crc32 data) ∧
       (∀ blk, findBlock s h data = some blk ↔
          blk.checksum = crc32 data ∧
            ∃ l1 l2, bucket = l1 ++ blk :: l2 ∧
              ∀ b ∈ l1, ¬ b.checksum = crc32 data))) := by
  constructor
  · intro hnone
    simp [findBlock, hnone]
  · intro bucket hsome
    rw [findBlock_bucket data hsome]
    constructor
    · simp only [List.find?_eq_none, decide_eq_true_eq]
    · intro blk
      rw [find?_eq_some_split]
      simp only [decide_eq_true_eq, decide_eq_false_iff_not]

/-- Claim C3, witness: a lookup with no bucket misses. -/
theorem C3_findBlock_amended_witness : findBlock c3Sig 1 [] = none :=
  (C3_findBlock_amended c3Sig 1 []).1 (by decide)

/-! ### Claim C4: CompareDirectories classification -/

/-- Claim C4, code evaluation at the failing input: two files of equal
size (1 byte), different mtimes and identical content are classified
Modified without any digest comparison; the spec requires reading both
and comparing digests, giving Unchanged here. The digest comparison in
the Go source sits on the different-size branch instead. -/
theorem C4_code_eval :
    classifyPair 1 1 false [0x61] [0x61] = some FileStatus.modified ∧
    sha256 [0x61] = sha256 [0x61] := by
  exact ⟨by decide, rfl⟩

/-! ### Claim C5: applier source pre-verification -/

/-- The all-zero 32-byte digest meaning unchecked. -/
def zeros32 : List Nat := List.replicate 32 0

/-- Claim C5, counterexample: ApplyPatch performs the digest comparison
unconditionally. With an all-zero header source digest and an empty
source file the claim says no comparison is performed and apply does
not fail on that account, but ApplyPatch fails with the checksum
mismatch error. -/
theorem C5_counterexample :
    isZeroChecksum zeros32 = true ∧
    applyPatchSourceCheck zeros32 [] = .error "source file checksum mismatch" := by
  constructor
  · decide
  · decide

/-- Claim C5 (amended): ApplyDelta implements the conditional check —
all-zero source digest skips verification entirely, a non-zero digest
fails exactly when the source's SHA-256 differs — while ApplyPatch
always compares the source's SHA-256 with the header digest. -/
theorem C5_source_preverify (digest src : List Nat) :
    (isZeroChecksum digest = true → applyDeltaSourceCheck digest src = .ok ()) ∧
    (isZeroChecksum digest = false →
      (applyDeltaSourceCheck digest src = .ok () ↔ sha256 src = digest)) ∧
    (applyPatchSourceCheck digest src = .ok () ↔ sha256 src = digest) := by
  have hv : ∀ d s : List Nat, (verifySourceFile s d = .ok () ↔ sha256 s = d) := by
    intro d s
    rw [verifySourceFile]
    split
    · rename_i hne
      simp only [reduceCtorEq, false_iff]
      exact hne
    · rename_i hne
      push_neg at hne
      simp only [true_iff]
      exact hne
  refine ⟨?_, ?_, hv _ _⟩
  · intro hz
    rw [applyDeltaSourceCheck, if_pos (by simp [hz])]
  · intro hz
    rw [applyDeltaSourceCheck, if_neg (by simp [hz])]
    exact hv _ _

/-- Claim C5, witness: ApplyDelta skips verification for the all-zero
digest on a source whose true digest is non-zero. -/
theorem C5_source_preverify_witness :
    applyDeltaSourceCheck zeros32 [0x61] = .ok () :=
  (C5_source_preverify zeros32 [0x61]).1 (by decide)

/-! ### Claim C6: header validation on load -/

/-- A 104-byte header: correct magic and version, zero sizes, zero
operation count — and data_offset 0 instead of 104. -/
def c6HeaderBytes : List Nat :=
  [0x44, 0x58, 0x45, 0x48, 1, 0] ++ List.replicate 98 0

/-- Claim C6, counterexample: a header whose data_offset (0) violates
data_offset = 104 + 26·operation_count (= 104) is accepted by
Unmarshal+Validate; the Go code never checks data_offset. -/
theorem C6_counterexample :
    unmarshalHeader c6HeaderBytes = .ok (parseHeaderFields c6HeaderBytes) ∧
    (parseHeaderFields c6HeaderBytes).dataOffset ≠
      104 + 26 * (parseHeaderFields c6HeaderBytes).operationCount := by
  constructor
  · decide
  · decide

/-- Claim C6 (amended): validation on load accepts a byte sequence of
at least 104 bytes exactly when the magic matches 0x48455844, the
version equals 1 and both sizes are non-negative; data_offset is not
validated. Shorter inputs are rejected. -/
theorem C6_validate_amended (data : List Nat) (h : 104 ≤ data.length) :
    (∃ hd, unmarshalHeader data = .ok hd) ↔
      (readLE data 0 4 = 0x48455844 ∧ readLE data 4 2 = 1 ∧
       0 ≤ toInt64 (readLE data 16 8) ∧ 0 ≤ toInt64 (readLE data 24 8)) := by
  rw [unmarshalHeader, if_neg (by omega)]
  rw [validateHeader]
  simp only [parseHeaderFields]
  split
  · rename_i hmagic
    simp only [reduceCtorEq, exists_false, false_iff]
    intro hc
    exact hmagic hc.1
  · split
    · rename_i hmagic hver
      simp only [reduceCtorEq, exists_false, false_iff]
      intro hc
      exact hver hc.2.1
    · split
      · rename_i hmagic hver hsz
        simp only [reduceCtorEq, exists_false, false_iff]
        intro hc
        rcases hsz with hs | hs
        · omega
        · omega
      · rename_i hmagic hver hsz
        push_neg at hmagic hver hsz
        simp only [Except.ok.injEq, exists_eq', true_iff]
        exact ⟨hmagic, hver, by omega, by omega⟩

/-- Claim C6, witness: the concrete header bytes above satisfy the
amended acceptance conditions and are accepted. -/
theorem C6_validate_amended_witness :
    ∃ hd, unmarshalHeader c6HeaderBytes = .ok hd :=
  (C6_validate_amended c6HeaderBytes (by decide)).mpr (by decide)

/-! ### Claim C7: star-dot ignore patterns -/

def c7Path : List Char := ['f', 'o', 'o', '.', 's', 'w', 'p']

def c7Pattern : List Char := ['*', '.', 's', 'w', 'p']

/-- Claim C7: the pattern star-dot-swp does not match basename foo.swp:
the code strips the leading star first, so the star-dot extension
branch never fires for such patterns, and none of the remaining
comparisons match. The claim (and the spec) says it must match. -/
theorem C7_code_eval : shouldIgnore c7Path [c7Pattern] = false := by
  decide

/-! ### Claim C9: optimizer frame -/

/-- Claim C9: OptimizeDelta preserves SourceSize, TargetSize and the
target Checksum; only the operation list changes. -/
theorem C9_optimize_frame (cfg : OptimizerConfig) (d : Delta) :
    (OptimizeDelta cfg d).sourceSize = d.sourceSize ∧
    (OptimizeDelta cfg d).targetSize = d.targetSize ∧
    (OptimizeDelta cfg d).checksum = d.checksum := by
  rw [OptimizeDelta]
  split <;> exact ⟨rfl, rfl, rfl⟩

/-! ### Claim C10: INSERT bounds check -/

/-- Claim C10, code evaluation at the failing input: an INSERT with
DataOffset = 2^32 - 1 and Size = 1 against an empty literal blob passes
the wrapped-uint32 guard (sum wraps to 0) and the slice expression
faults at run time instead of returning the out-of-bounds error the
claim requires. The true sum 2^32 exceeds the blob length 0. -/
theorem C10_code_eval :
    applyInsertOperation 4294967295 1 [] = .sliceFault ∧
    4294967295 + 1 > ([] : List Nat).length := by
  constructor
  · decide
  · decide

/-! ### Claim C8: rolling hash agrees with FastHash on the window -/

theorem mod_mul_add_mod (x y z M : Nat) :
    ((x % M) * y + z) % M = (x * y + z) % M := by
  conv_lhs => rw [Nat.add_mod, Nat.mod_mul_mod]
  rw [← Nat.add_mod]

theorem add_mod_right_mod (w z M : Nat) : (w + z % M) % M = (w + z) % M := by
  conv_lhs => rw [Nat.add_mod, Nat.mod_mod_of_dvd z (dvd_refl M)]
  rw [← Nat.add_mod]

theorem fastHash_append_one (l : List Nat) (b : Nat) :
    fastHash (l ++ [b]) = (fastHash l * rollingHashBase + b) % rollingHashMod := by
  rw [fastHash, fastHash, List.foldl_append]
  rfl

theorem fastHashStep_lt (l : List Nat) (h : Nat) (hh : h < rollingHashMod) :
    l.foldl (fun h b => (h * rollingHashBase + b) % rollingHashMod) h < rollingHashMod := by
  induction l generalizing h with
  | nil => exact hh
  | cons a l ih =>
      rw [List.foldl_cons]
      exact ih _ (Nat.mod_lt _ (by rw [rollingHashMod]; omega))

theorem fastHash_lt (l : List Nat) : fastHash l < rollingHashMod :=
  fastHashStep_lt l 0 (by rw [rollingHashMod]; omega)

theorem fastHash_cons (a : Nat) (t : List Nat) :
    fastHash (a :: t) =
      (a * rollingHashBase ^ t.length + fastHash t) % rollingHashMod := by
  induction t using List.reverseRecOn with
  | nil =>
      show (0 * rollingHashBase + a) % rollingHashMod = _
      simp [fastHash]
  | append_singleton t' b ih =>
      have h1 : fastHash (a :: (t' ++ [b])) = fastHash ((a :: t') ++ [b]) := by
        simp
      rw [h1, fastHash_append_one, ih, mod_mul_add_mod, fastHash_append_one,
        add_mod_right_mod]
      simp only [List.length_append, List.length_cons, List.length_nil]
      congr 1
      ring

theorem basePowLoop_eq (k : Nat) :
    basePowLoop k = rollingHashBase ^ k % rollingHashMod := by
  induction k with
  | zero => rw [basePowLoop]; norm_num [rollingHashMod]
  | succ n ih =>
      rw [basePowLoop, ih, Nat.mod_mul_mod, pow_succ]

theorem evict_eq (a : Nat) (t : List Nat) :
    ((fastHash (a :: t) + rollingHashMod -
        (a * (rollingHashBase ^ t.length % rollingHashMod)) % rollingHashMod) %
      rollingHashMod) = fastHash t := by
  set M := rollingHashMod with hM
  have hMpos : 0 < M := by rw [hM, rollingHashMod]; omega
  set x := (a * (rollingHashBase ^ t.length % M)) % M with hx
  have hxlt : x < M := Nat.mod_lt _ hMpos
  have hxeq : x = (a * rollingHashBase ^ t.length) % M := by
    rw [hx, Nat.mul_mod, Nat.mod_mod, ← Nat.mul_mod]
  set h := fastHash (a :: t) with hh
  have hhlt : h < M := fastHash_lt _
  set y := h + M - x with hy
  have hyx : y + x = h + M := by rw [hy]; omega
  have hft : fastHash t < M := fastHash_lt _
  have key : (y + x) % M = (fastHash t + x) % M := by
    rw [hyx]
    rw [Nat.add_mod_right]
    rw [Nat.mod_eq_of_lt hhlt]
    rw [hxeq, add_mod_right_mod]
    rw [hh, fastHash_cons]
    ring_nf
  have : y % M = fastHash t % M := Nat.ModEq.add_right_cancel' x key
  rw [this, Nat.mod_eq_of_lt hft]

/-- The rolling-hash loop invariant: correct configuration, window =
the last min(n, W) bytes fed, accumulator = FastHash of the window. -/
def rhInv (W : Nat) (fed : List Nat) (st : RollingHash) : Prop :=
  st.windowSize = W ∧
  st.basePow = rollingHashBase ^ (W - 1) % rollingHashMod ∧
  st.window = fed.drop (fed.length - W) ∧
  st.hash = fastHash st.window

theorem rhAdd_inv (W : Nat) (hW : 1 ≤ W) (fed : List Nat) (st : RollingHash)
    (hinv : rhInv W fed st) (b : Nat) : rhInv W (fed ++ [b]) (st.Add b) := by
  obtain ⟨hws, hbp, hwin, hh⟩ := hinv
  have hlen : st.window.length = fed.length - (fed.length - W) := by
    rw [hwin, List.length_drop]
  rw [RollingHash.Add]
  by_cases hfull : st.window.length < st.windowSize
  · rw [if_pos hfull]
    have hfed : fed.length < W := by
      rw [hws] at hfull
      omega
    have hwin' : st.window = fed := by
      rw [hwin, Nat.sub_eq_zero_of_le (le_of_lt hfed), List.drop_zero]
    refine ⟨hws, hbp, ?_, ?_⟩
    · simp only [List.length_append, List.length_cons, List.length_nil]
      rw [Nat.sub_eq_zero_of_le (by omega), List.drop_zero, hwin']
    · simp only [hwin', hh]
      rw [← fastHash_append_one]
  · rw [if_neg hfull]
    have hfedge : W ≤ fed.length := by
      by_contra hc
      push_neg at hc
      rw [hws] at hfull
      omega
    have hwlen : st.window.length = W := by omega
    match hwc : st.window with
    | [] => rw [hwc] at hwlen; simp at hwlen; omega
    | a :: t =>
        have htlen : t.length = W - 1 := by
          rw [hwc] at hwlen
          simp at hwlen
          omega
        refine ⟨hws, hbp, ?_, ?_⟩
        · simp only [List.headI, List.tail_cons]
          simp only [List.length_append, List.length_cons, List.length_nil]
          have hk : fed.length + 1 - W = (fed.length - W) + 1 := by omega
          rw [hk, List.drop_append_of_le_length (by omega)]
          have : fed.drop (fed.length - W + 1) = t := by
            have hdd : fed.drop (fed.length - W + 1) =
                (fed.drop (fed.length - W)).drop 1 := by
              rw [List.drop_drop]
            rw [hdd, ← hwin, hwc, List.drop_one, List.tail_cons]
          rw [this]
        · simp only [List.headI, List.tail_cons]
          rw [hh, hwc, hbp, ← htlen]
          rw [evict_eq a t]
          rw [← fastHash_append_one]

theorem rhFeed_inv (W : Nat) (hW : 1 ≤ W) :
    ∀ (bytes fed : List Nat) (st : RollingHash),
      rhInv W fed st → rhInv W (fed ++ bytes) (rhFeed st bytes) := by
  intro bytes
  induction bytes with
  | nil => intro fed st h; simpa [rhFeed] using h
  | cons b rest ih =>
      intro fed st h
      have hstep := rhAdd_inv W hW fed st h b
      have := ih (fed ++ [b]) (st.Add b) hstep
      simpa [rhFeed, List.foldl_cons] using this

/-- Claim C8: feeding any byte sequence through RollingHash.Add (the
code's recurrence: fill, then evict the oldest byte with the
precomputed base^(W-1) term and append), the accumulator after each
prefix equals FastHash of the current window, the last min(n, W) bytes
fed; the accumulator and base power stay below the modulus, so every
intermediate uint64 computation stays below 2^64. -/
theorem C8_rolling_hash (W : Nat) (hW : 1 ≤ W) (bytes : List Nat) :
    (rhFeed (newRollingHash W) bytes).window = bytes.drop (bytes.length - W) ∧
    (rhFeed (newRollingHash W) bytes).hash =
      fastHash (bytes.drop (bytes.length - W)) ∧
    (rhFeed (newRollingHash W) bytes).hash < rollingHashMod ∧
    (rhFeed (newRollingHash W) bytes).basePow < rollingHashMod ∧
    (rhFeed (newRollingHash W) bytes).hash * rollingHashBase + 255 < 2 ^ 64 ∧
    255 * (rhFeed (newRollingHash W) bytes).basePow < 2 ^ 64 ∧
    (rhFeed (newRollingHash W) bytes).hash + 2 * rollingHashMod < 2 ^ 64 := by
  have hbase : rhInv W [] (newRollingHash W) := by
    refine ⟨rfl, basePowLoop_eq (W - 1), by simp [newRollingHash], ?_⟩
    show (0 : Nat) = fastHash (newRollingHash W).window
    simp [newRollingHash, fastHash]
  have h := rhFeed_inv W hW bytes [] (newRollingHash W) hbase
  obtain ⟨hws, hbp, hwin, hh⟩ := h
  simp only [List.nil_append] at hwin hh
  have hhlt : (rhFeed (newRollingHash W) bytes).hash < rollingHashMod := by
    rw [hh]; exact fastHash_lt _
  have hbplt : (rhFeed (newRollingHash W) bytes).basePow < rollingHashMod := by
    rw [hbp]
    exact Nat.mod_lt _ (by rw [rollingHashMod]; omega)
  refine ⟨hwin, by rw [hh, hwin], hhlt, hbplt, ?_, ?_, ?_⟩
  · have : (rhFeed (newRollingHash W) bytes).hash * rollingHashBase + 255 <
        rollingHashMod * rollingHashBase + 255 := by
      have := Nat.mul_lt_mul_of_lt_of_le hhlt (le_refl rollingHashBase)
        (by rw [rollingHashBase]; omega)
      omega
    calc (rhFeed (newRollingHash W) bytes).hash * rollingHashBase + 255 <
          rollingHashMod * rollingHashBase + 255 := this
      _ < 2 ^ 64 := by rw [rollingHashMod, rollingHashBase]; norm_num
  · calc 255 * (rhFeed (newRollingHash W) bytes).basePow <
          255 * rollingHashMod := by
            exact Nat.mul_lt_mul_of_le_of_lt (le_refl 255) hbplt (by omega)
      _ < 2 ^ 64 := by rw [rollingHashMod]; norm_num
  · calc (rhFeed (newRollingHash W) bytes).hash + 2 * rollingHashMod <
          rollingHashMod + 2 * rollingHashMod := by omega
      _ < 2 ^ 64 := by rw [rollingHashMod]; norm_num

/-- Claim C8, witness at window size 2 and three bytes fed. -/
theorem C8_rolling_hash_witness :
    (rhFeed (newRollingHash 2) [10, 20, 30]).window =
        [10, 20, 30].drop ([10, 20, 30].length - 2) ∧
    (rhFeed (newRollingHash 2) [10, 20, 30]).hash =
      fastHash ([10, 20, 30].drop ([10, 20, 30].length - 2)) ∧
    (rhFeed (newRollingHash 2) [10, 20, 30]).hash < rollingHashMod ∧
    (rhFeed (newRollingHash 2) [10, 20, 30]).basePow < rollingHashMod ∧
    (rhFeed (newRollingHash 2) [10, 20, 30]).hash * rollingHashBase + 255 < 2 ^ 64 ∧
    255 * (rhFeed (newRollingHash 2) [10, 20, 30]).basePow < 2 ^ 64 ∧
    (rhFeed (newRollingHash 2) [10, 20, 30]).hash + 2 * rollingHashMod < 2 ^ 64 :=
  C8_rolling_hash 2 (by omega) [10, 20, 30]

/-! ### Claim C2: optimizer soundness. Write-composition lemmas first. -/

theorem writeAt_nil (f : List Nat) (pos : Nat) : writeAt f pos [] = f := by
  rw [writeAt, if_pos rfl]

theorem writeAt_eq_of_ne_nil (f : List Nat) (pos : Nat) (d : List Nat) (h : d ≠ []) :
    writeAt f pos d =
      (f ++ List.replicate (pos - f.length) 0).take pos ++ d ++
        (f ++ List.replicate (pos - f.length) 0).drop (pos + d.length) := by
  rw [writeAt, if_neg h]

theorem writeAt_length_append (f : List Nat) (d : List Nat) :
    writeAt f f.length d = f ++ d := by
  by_cases h : d = []
  · subst h
    rw [writeAt_nil]
    simp
  · rw [writeAt_eq_of_ne_nil f _ d h]
    simp

theorem writeAt_append (f : List Nat) (pos : Nat) (d1 d2 : List Nat) :
    writeAt (writeAt f pos d1) (pos + d1.length) d2 = writeAt f pos (d1 ++ d2) := by
  by_cases h1 : d1 = []
  · subst h1
    rw [writeAt_nil]
    simp
  by_cases h2 : d2 = []
  · subst h2
    rw [writeAt_nil]
    simp
  have h12 : d1 ++ d2 ≠ [] := by simp [h1]
  set padded := f ++ List.replicate (pos - f.length) 0 with hpadded
  have hpos_le : pos ≤ padded.length := by
    rw [hpadded]
    simp
    omega
  have hg : writeAt f pos d1 =
      (padded.take pos ++ d1) ++ padded.drop (pos + d1.length) := by
    rw [writeAt_eq_of_ne_nil f pos d1 h1, ← hpadded]
  have htklen : (padded.take pos ++ d1).length = pos + d1.length := by
    simp [List.length_take]
    omega
  have hglen : pos + d1.length ≤ (writeAt f pos d1).length := by
    rw [hg]
    simp [List.length_take]
    omega
  have hgtake : (writeAt f pos d1).take (pos + d1.length) = padded.take pos ++ d1 := by
    rw [hg, ← htklen, List.take_left]
  have hgdrop : ∀ k, (writeAt f pos d1).drop (pos + d1.length + k) =
      padded.drop (pos + d1.length + k) := by
    intro k
    conv_lhs => rw [hg]
    rw [show pos + d1.length + k = (padded.take pos ++ d1).length + k by omega]
    rw [List.drop_append, List.drop_drop, htklen]
  rw [writeAt_eq_of_ne_nil _ _ d2 h2, writeAt_eq_of_ne_nil _ _ _ h12]
  have hpad2 : writeAt f pos d1 ++
      List.replicate (pos + d1.length - (writeAt f pos d1).length) 0 =
      writeAt f pos d1 := by
    rw [Nat.sub_eq_zero_of_le hglen]
    simp
  rw [hpad2, hgtake, hgdrop d2.length]
  rw [← hpadded]
  simp only [List.length_append, List.append_assoc]
  rw [show pos + d1.length + d2.length = pos + (d1.length + d2.length) by omega]

theorem applyOperationList_nil (S f : List Nat) : applyOperationList S [] f = f := rfl

theorem applyOperationList_cons (S : List Nat) (op : Operation) (ops : List Operation)
    (f : List Nat) :
    applyOperationList S (op :: ops) f = applyOperationList S ops (applyOperation S f op) := rfl

theorem applyOperation_copy (S f : List Nat) (op : Operation) (h : op.type = .opCopy) :
    applyOperation S f op = writeAt f op.offset (copyRead S op.srcOffset op.size) := by
  rw [applyOperation, h]

theorem applyOperation_insert (S f : List Nat) (op : Operation) (h : op.type = .opInsert) :
    applyOperation S f op = writeAt f op.offset op.data := by
  rw [applyOperation, h]

theorem applyOperation_delete (S f : List Nat) (op : Operation) (h : op.type = .opDelete) :
    applyOperation S f op = f := by
  rw [applyOperation, h]

theorem applyOperation_zero (S f : List Nat) (op : Operation)
    (hz : op.size = 0) (hins : op.type = .opInsert → op.data.length = op.size) :
    applyOperation S f op = f := by
  cases htype : op.type with
  | opCopy =>
      rw [applyOperation_copy S f op htype, copyRead, hz]
      simp [writeAt_nil]
  | opInsert =>
      have hd : op.data = [] := by
        have := hins htype
        rw [hz] at this
        exact List.length_eq_zero.mp this
      rw [applyOperation_insert S f op htype, hd, writeAt_nil]
  | opDelete => exact applyOperation_delete S f op htype

theorem copyRead_length (S : List Nat) (o k : Nat) (h : o + k ≤ S.length) :
    (copyRead S o k).length = k := by
  rw [copyRead]
  simp [List.length_take, List.length_drop]
  omega

theorem copyRead_add (S : List Nat) (o k1 k2 : Nat) :
    copyRead S o (k1 + k2) = copyRead S o k1 ++ copyRead S (o + k1) k2 := by
  rw [copyRead, copyRead, copyRead, List.take_add]
  congr 1
  rw [List.drop_drop, Nat.add_comm]

/-- Every INSERT carries exactly Size bytes of literal data. -/
def insertSizesValid (ops : List Operation) : Prop :=
  ∀ op ∈ ops, op.type = .opInsert → op.data.length = op.size

/-- Every COPY's source range lies inside the source file. -/
def copyBoundsValid (S : List Nat) (ops : List Operation) : Prop :=
  ∀ op ∈ ops, op.type = .opCopy → op.srcOffset + op.size ≤ S.length

theorem mergeCopy_rest_mem :
    ∀ (ops : List Operation) (m p x : Operation),
      x ∈ (mergeCopyOperations m p ops).2 → x ∈ ops := by
  intro ops
  induction ops with
  | nil => intro m p x hx; rw [mergeCopyOperations] at hx; exact absurd hx (by simp)
  | cons curr rest ih =>
      intro m p x hx
      rw [mergeCopyOperations] at hx
      split at hx
      · exact List.mem_cons_of_mem curr (ih _ _ _ hx)
      · exact hx

theorem mergeInsert_rest_mem :
    ∀ (ops : List Operation) (m p x : Operation),
      x ∈ (mergeInsertOperations m p ops).2 → x ∈ ops := by
  intro ops
  induction ops with
  | nil => intro m p x hx; rw [mergeInsertOperations] at hx; exact absurd hx (by simp)
  | cons curr rest ih =>
      intro m p x hx
      rw [mergeInsertOperations] at hx
      split at hx
      · exact List.mem_cons_of_mem curr (ih _ _ _ hx)
      · exact hx

theorem mergeDelete_rest_mem :
    ∀ (ops : List Operation) (m p x : Operation),
      x ∈ (mergeDeleteOperations m p ops).2 → x ∈ ops := by
  intro ops
  induction ops with
  | nil => intro m p x hx; rw [mergeDeleteOperations] at hx; exact absurd hx (by simp)
  | cons curr rest ih =>
      intro m p x hx
      rw [mergeDeleteOperations] at hx
      split at hx
      · exact List.mem_cons_of_mem curr (ih _ _ _ hx)
      · exact hx

theorem mergeCopy_correct (S : List Nat) :
    ∀ (ops : List Operation) (m p : Operation),
      m.type = .opCopy →
      p.offset + p.size = m.offset + m.size →
      p.srcOffset + p.size = m.srcOffset + m.size →
      m.srcOffset + m.size ≤ S.length →
      copyBoundsValid S ops →
      ∀ f, applyOperationList S
            ((mergeCopyOperations m p ops).1 :: (mergeCopyOperations m p ops).2) f =
          applyOperationList S (m :: ops) f := by
  intro ops
  induction ops with
  | nil => intro m p _ _ _ _ _ f; rw [mergeCopyOperations]
  | cons curr rest ih =>
      intro m p hm hlink1 hlink2 hmb hv f
      rw [mergeCopyOperations]
      split
      · rename_i hcond
        obtain ⟨hct, hco, hcs⟩ := hcond
        have hcurrb : curr.srcOffset + curr.size ≤ S.length := hv curr (by simp) hct
        have hm' : ({ m with size := m.size + curr.size } : Operation).type = .opCopy := hm
        have hstep : applyOperation S f { m with size := m.size + curr.size } =
            applyOperation S (applyOperation S f m) curr := by
          rw [applyOperation_copy S f _ hm', applyOperation_copy S f m hm,
            applyOperation_copy S _ curr hct]
          show writeAt f m.offset (copyRead S m.srcOffset (m.size + curr.size)) = _
          rw [copyRead_add]
          rw [← writeAt_append]
          rw [copyRead_length S m.srcOffset m.size (by omega)]
          rw [show m.offset + m.size = curr.offset by omega]
          rw [show m.srcOffset + m.size = curr.srcOffset by omega]
        rw [applyOperationList_cons, applyOperationList_cons, applyOperationList_cons]
        rw [← hstep]
        rw [← applyOperationList_cons]
        exact ih { m with size := m.size + curr.size } curr hm
          (by simp; omega) (by simp; omega) (by simp; omega)
          (fun op hop ht => hv op (by simp [hop]) ht) f
      · rfl

theorem mergeInsert_correct (S : List Nat) :
    ∀ (ops : List Operation) (m p : Operation),
      m.type = .opInsert →
      m.data.length = m.size →
      p.offset + p.size = m.offset + m.size →
      insertSizesValid ops →
      ∀ f, applyOperationList S
            ((mergeInsertOperations m p ops).1 :: (mergeInsertOperations m p ops).2) f =
          applyOperationList S (m :: ops) f := by
  intro ops
  induction ops with
  | nil => intro m p _ _ _ _ f; rw [mergeInsertOperations]
  | cons curr rest ih =>
      intro m p hm hmd hlink1 hv f
      rw [mergeInsertOperations]
      split
      · rename_i hcond
        obtain ⟨hct, hco⟩ := hcond
        have hcurrd : curr.data.length = curr.size := hv curr (by simp) hct
        have hm' : ({ m with size := m.size + curr.size, data := m.data ++ curr.data } : Operation).type = .opInsert := hm
        have hstep : applyOperation S f
              { m with size := m.size + curr.size, data := m.data ++ curr.data } =
            applyOperation S (applyOperation S f m) curr := by
          rw [applyOperation_insert S f _ hm', applyOperation_insert S f m hm,
            applyOperation_insert S _ curr hct]
          show writeAt f m.offset (m.data ++ curr.data) = _
          rw [← writeAt_append]
          rw [hmd]
          rw [show m.offset + m.size = curr.offset by omega]
        rw [applyOperationList_cons, applyOperationList_cons, applyOperationList_cons]
        rw [← hstep]
        rw [← applyOperationList_cons]
        exact ih { m with size := m.size + curr.size, data := m.data ++ curr.data } curr hm
          (by simp; omega) (by simp; omega)
          (fun op hop ht => hv op (by simp [hop]) ht) f
      · rfl

theorem mergeDelete_correct (S : List Nat) :
    ∀ (ops : List Operation) (m p : Operation),
      m.type = .opDelete →
      ∀ f, applyOperationList S
            ((mergeDeleteOperations m p ops).1 :: (mergeDeleteOperations m p ops).2) f =
          applyOperationList S (m :: ops) f := by
  intro ops
  induction ops with
  | nil => intro m p _ f; rw [mergeDeleteOperations]
  | cons curr rest ih =>
      intro m p hm f
      rw [mergeDeleteOperations]
      split
      · rename_i hcond
        obtain ⟨hct, hco⟩ := hcond
        have hm' : ({ m with size := m.size + curr.size } : Operation).type = .opDelete := hm
        have hstep : applyOperation S f { m with size := m.size + curr.size } =
            applyOperation S (applyOperation S f m) curr := by
          rw [applyOperation_delete S f _ hm']
          rw [applyOperation_delete S f m hm]
          rw [applyOperation_delete S f curr hct]
        rw [applyOperationList_cons, applyOperationList_cons, applyOperationList_cons]
        rw [← hstep]
        rw [← applyOperationList_cons]
        exact ih { m with size := m.size + curr.size } curr hm f
      · rfl

theorem optimizeOps_apply (cfg : OptimizerConfig) (S : List Nat) :
    ∀ (n : Nat) (ops : List Operation), ops.length ≤ n →
      insertSizesValid ops → copyBoundsValid S ops →
      ∀ f, applyOperationList S (optimizeOps cfg ops) f = applyOperationList S ops f := by
  intro n
  induction n with
  | zero =>
      intro ops hlen _ _ f
      match ops, hlen with
      | [], _ => rw [optimizeOps]
  | succ k ih =>
      intro ops hlen hins hcb f
      match ops with
      | [] => rw [optimizeOps]
      | op :: rest =>
          rw [optimizeOps]
          have hrest_len : rest.length ≤ k := by
            simp at hlen
            omega
          have hins_rest : insertSizesValid rest :=
            fun x hx ht => hins x (by simp [hx]) ht
          have hcb_rest : copyBoundsValid S rest :=
            fun x hx ht => hcb x (by simp [hx]) ht
          cases htype : op.type with
          | opCopy =>
              by_cases hflag : cfg.enableMergeCopy
              · rw [if_pos hflag]
                rw [applyOperationList_cons]
                rw [ih (mergeCopyOperations op op rest).2
                  (le_trans (mergeCopyOperations_rest_length op op rest) hrest_len)
                  (fun x hx ht => hins_rest x (mergeCopy_rest_mem rest op op x hx) ht)
                  (fun x hx ht => hcb_rest x (mergeCopy_rest_mem rest op op x hx) ht)]
                rw [← applyOperationList_cons]
                exact mergeCopy_correct S rest op op htype rfl rfl
                  (hcb op (by simp) htype) hcb_rest f
              · rw [if_neg hflag]
                rw [applyOperationList_cons, applyOperationList_cons]
                exact ih rest hrest_len hins_rest hcb_rest _
          | opInsert =>
              by_cases hflag : cfg.enableMergeInsert
              · rw [if_pos hflag]
                rw [applyOperationList_cons]
                rw [ih (mergeInsertOperations op op rest).2
                  (le_trans (mergeInsertOperations_rest_length op op rest) hrest_len)
                  (fun x hx ht => hins_rest x (mergeInsert_rest_mem rest op op x hx) ht)
                  (fun x hx ht => hcb_rest x (mergeInsert_rest_mem rest op op x hx) ht)]
                rw [← applyOperationList_cons]
                exact mergeInsert_correct S rest op op htype
                  (hins op (by simp) htype) rfl hins_rest f
              · rw [if_neg hflag]
                rw [applyOperationList_cons, applyOperationList_cons]
                exact ih rest hrest_len hins_rest hcb_rest _
          | opDelete =>
              by_cases hflag : cfg.enableMergeDelete
              · rw [if_pos hflag]
                rw [applyOperationList_cons]
                rw [ih (mergeDeleteOperations op op rest).2
                  (le_trans (mergeDeleteOperations_rest_length op op rest) hrest_len)
                  (fun x hx ht => hins_rest x (mergeDelete_rest_mem rest op op x hx) ht)
                  (fun x hx ht => hcb_rest x (mergeDelete_rest_mem rest op op x hx) ht)]
                rw [← applyOperationList_cons]
                exact mergeDelete_correct S rest op op htype f
              · rw [if_neg hflag]
                rw [applyOperationList_cons, applyOperationList_cons]
                exact ih rest hrest_len hins_rest hcb_rest _

theorem removeEmpty_apply (S : List Nat) :
    ∀ (ops : List Operation), insertSizesValid ops →
      ∀ f, applyOperationList S (removeEmptyOperations ops) f =
        applyOperationList S ops f := by
  intro ops
  induction ops with
  | nil => intro _ f; rfl
  | cons op rest ih =>
      intro hins f
      have hins_rest : insertSizesValid rest :=
        fun x hx ht => hins x (by simp [hx]) ht
      rw [removeEmptyOperations, List.filter_cons]
      by_cases hz : op.size > 0
      · rw [if_pos (by simpa using hz)]
        rw [applyOperationList_cons, applyOperationList_cons]
        exact ih hins_rest _
      · rw [if_neg (by simpa using hz)]
        rw [applyOperationList_cons]
        rw [applyOperation_zero S f op (by omega) (hins op (by simp))]
        exact ih hins_rest f

theorem redundantDeletes_apply (S : List Nat) :
    ∀ (ops : List Operation) (f : List Nat),
      applyOperationList S (optimizeRedundantDeletes ops) f =
        applyOperationList S ops f := by
  intro ops
  induction ops with
  | nil => intro f; rfl
  | cons op rest ih =>
      intro f
      rw [optimizeRedundantDeletes]
      split
      · rename_i hcond
        rw [applyOperationList_cons, applyOperation_delete S f op hcond.1]
        exact ih f
      · rw [applyOperationList_cons, applyOperationList_cons]
        exact ih _

/-- Claim C2: for a valid Delta (INSERT Size equals its literal length,
COPY source ranges inside the source), applying the optimized Delta to
a source produces the same bytes as applying the original: empty-op
removal, run merging and redundant-DELETE elision preserve the output. -/
theorem C2_optimizer_sound (cfg : OptimizerConfig) (S : List Nat) (d : Delta)
    (hins : insertSizesValid d.operations)
    (hcopy : copyBoundsValid S d.operations) :
    applyOperationList S (OptimizeDelta cfg d).operations [] =
      applyOperationList S d.operations [] := by
  rw [OptimizeDelta]
  split
  · rfl
  · show applyOperationList S
        (optimizeRedundantDeletes (optimizeOps cfg (removeEmptyOperations d.operations))) [] = _
    rw [redundantDeletes_apply]
    have hmem : ∀ x ∈ removeEmptyOperations d.operations, x ∈ d.operations := by
      intro x hx
      rw [removeEmptyOperations] at hx
      exact (List.mem_filter.mp hx).1
    rw [optimizeOps_apply cfg S (removeEmptyOperations d.operations).length _ (le_refl _)
      (fun x hx ht => hins x (hmem x hx) ht)
      (fun x hx ht => hcopy x (hmem x hx) ht)]
    exact removeEmpty_apply S d.operations hins []

/-- A small valid delta exercising all three operation kinds. -/
def c2Delta : Delta :=
  { operations :=
      [{ type := .opCopy, offset := 0, size := 2, data := [], srcOffset := 0 },
       { type := .opCopy, offset := 2, size := 2, data := [], srcOffset := 2 },
       { type := .opDelete, offset := 4, size := 1, data := [], srcOffset := 0 },
       { type := .opInsert, offset := 4, size := 1, data := [9], srcOffset := 0 }]
    sourceSize := 4
    targetSize := 5
    checksum := [] }

/-- Claim C2, witness at a concrete delta and source. -/
theorem C2_optimizer_sound_witness :
    applyOperationList [5, 6, 7, 8] (OptimizeDelta
        { enableMergeCopy := true, enableMergeInsert := true,
          enableMergeDelete := true, minMergedSize := 1024 } c2Delta).operations [] =
      applyOperationList [5, 6, 7, 8] c2Delta.operations [] :=
  C2_optimizer_sound _ _ _ (by unfold insertSizesValid; decide)
    (by unfold copyBoundsValid; decide)

/-! ### Claim C1: the generate/apply round trip, on a concrete input. -/

/-- Leading target block, absent from the source. -/
def c1Q : List Nat := List.replicate 64 1

/-- The source: a single 64-byte block. -/
def c1P : List Nat := List.replicate 64 2

/-- Trailing target block, absent from the source. -/
def c1R : List Nat := List.replicate 64 3

/-- The target: c1Q, then the source's block, then c1R. -/
def c1Target : List Nat := c1Q ++ c1P ++ c1R

/-- The single block the source c1P produces in its signature. -/
def c1BlockP : Block :=
  { offset := 0, size := 64, hash := fastHash c1P, checksum := crc32 c1P }

/-- Claim C1, code bug, evaluated at source c1P and target c1Target
with BlockSize 64 (a valid configuration). The scan misses on c1Q
(appending it to the unmatched buffer, allocating backing array 1),
matches on c1P (flushing an INSERT whose Data is the live length-64
slice of array 1, then truncating the slice to length 0 over that same
array), and misses on c1R, whose append fits the 64-byte array and so
writes in place, overwriting the flushed INSERT's bytes. Both INSERTs
of the delta therefore carry c1R, and applying the delta to the source
yields c1R ++ c1P ++ c1R, not the target c1Target = c1Q ++ c1P ++ c1R
that the claim promises. -/
theorem C1_code_eval :
    applyOperationList c1P (generateDelta 64 c1P c1Target).operations [] =
      c1R ++ c1P ++ c1R ∧
    c1R ++ c1P ++ c1R ≠ c1Target := by
  have hfhQ : fastHash c1P ≠ fastHash c1Q := by decide
  have hfhR : fastHash c1P ≠ fastHash c1R := by decide
  have hblocks : (generateSignature 64 c1P).blocks = [(fastHash c1P, [c1BlockP])] := rfl
  have hfbQ : findBlock (generateSignature 64 c1P) (fastHash c1Q) c1Q = none := by
    rw [findBlock, hblocks, lookupBucket, if_neg hfhQ, lookupBucket]
  have hfbR : findBlock (generateSignature 64 c1P) (fastHash c1R) c1R = none := by
    rw [findBlock, hblocks, lookupBucket, if_neg hfhR, lookupBucket]
  have hcrc : c1BlockP.checksum = crc32 c1P := rfl
  have hlbP : lookupBucket (generateSignature 64 c1P).blocks (fastHash c1P) =
      some [c1BlockP] := by
    rw [hblocks, lookupBucket, if_pos rfl]
  have hfbP : findBlock (generateSignature 64 c1P) (fastHash c1P) c1P =
      some c1BlockP := by
    rw [findBlock, hlbP]
    show List.find? (fun b => decide (b.checksum = crc32 c1P)) [c1BlockP] = some c1BlockP
    rw [List.find?_cons, decide_eq_true hcrc]
  have hgl : genLoop (generateSignature 64 c1P) 64 c1Target 0
      { ops := [], unmatchedStart := 0, buf := { arena := [[]], cur := 0, len := 0 } } =
      processChunk (generateSignature 64 c1P) c1R 128
        (processChunk (generateSignature 64 c1P) c1P 64
          (processChunk (generateSignature 64 c1P) c1Q 0
            { ops := [], unmatchedStart := 0,
              buf := { arena := [[]], cur := 0, len := 0 } })) := rfl
  have hpc1 : processChunk (generateSignature 64 c1P) c1Q 0
      { ops := [], unmatchedStart := 0, buf := { arena := [[]], cur := 0, len := 0 } } =
      { ops := [], unmatchedStart := 0,
        buf := { arena := [[], c1Q], cur := 1, len := 64 } } := by
    rw [processChunk, hfbQ]
    rfl
  have hpc2 : processChunk (generateSignature 64 c1P) c1P 64
      { ops := [], unmatchedStart := 0,
        buf := { arena := [[], c1Q], cur := 1, len := 64 } } =
      { ops := [ScanOp.insertRef 0 64 1, ScanOp.copy 64 64 0], unmatchedStart := 128,
        buf := { arena := [[], c1Q], cur := 1, len := 0 } } := by
    rw [processChunk, hfbP]
    rfl
  have hpc3 : processChunk (generateSignature 64 c1P) c1R 128
      { ops := [ScanOp.insertRef 0 64 1, ScanOp.copy 64 64 0], unmatchedStart := 128,
        buf := { arena := [[], c1Q], cur := 1, len := 0 } } =
      { ops := [ScanOp.insertRef 0 64 1, ScanOp.copy 64 64 0], unmatchedStart := 128,
        buf := { arena := [[], c1R], cur := 1, len := 64 } } := by
    rw [processChunk, hfbR]
    rfl
  have hops : (generateDelta 64 c1P c1Target).operations =
      [{ type := .opInsert, offset := 0, size := 64, data := c1R, srcOffset := 0 },
       { type := .opCopy, offset := 64, size := 64, data := [], srcOffset := 0 },
       { type := .opInsert, offset := 128, size := 64, data := c1R, srcOffset := 0 }] := by
    simp only [generateDelta]
    rw [hgl, hpc1, hpc2, hpc3]
    rfl
  refine ⟨?_, by decide⟩
  rw [hops]
  decide

end HexDiff

